import Mathlib

/-!
# Verification of the `image-duplicate` hash-database core

A shallow embedding of `src/hashdb.rs`: the extension classifier
(`has_image_suffix`), the directory-scan filters inside `read_dir` /
`read_dir_recursive`, the filesystem synchronization algorithm, the
pairwise duplicate finder, and the MessagePack-map persistence codec
(`to_file` / `from_file`, with the zlib layer kept as an abstract
inverse pair of byte-stream transformations).

Modelling conventions:
* canonical paths stored as map keys are their UTF-8 byte sequences
  (`Key := List Nat`); fingerprints are their byte sequences
  (`ImageHash := List Nat`), matching `image_hasher::ImageHash::as_bytes`;
* the backing `HashMap<String, ImageHash>` is an association list whose
  keys are pairwise distinct (`HashMap` semantics); iteration order is
  arbitrary in Rust, so every theorem is stated order-insensitively
  (through lookups, counts and memberships);
* fallible Rust code (`Result`) becomes `Except` / `Option`.
-/

namespace ImageDup

/-! ## Path classifier (`has_image_suffix`, `SUFFIXES`) -/

/-- `const SUFFIXES: [&str; 7]` from `hashdb.rs` line 42, as character lists. -/
def SUFFIXES : List (List Char) :=
  ["bmp", "gif", "jpg", "jpeg", "jxl", "png", "webp"].map String.toList

/-- The final path component: everything after the last `/`.  Models
`std::path::Path::file_name` for paths whose last component is a normal
component (the scanners only ever classify directory-entry paths, which
always end in a normal component). -/
def fileName (p : List Char) : List Char :=
  (p.reverse.takeWhile (fun c => c != '/')).reverse

/-- Models `std::path::Path::extension`: split the file name at its last
dot; the extension is the part after that dot, and it exists only when
the part before the dot is nonempty (so `.png` has no extension, while
`foo.` has the empty extension and `a.b.png` has extension `png`). -/
def rustExtension (p : List Char) : Option (List Char) :=
  match fileName p with
  | [] => none
  | _ :: rest =>
    if rest.contains '.' then
      some ((rest.reverse.takeWhile (fun c => c != '.')).reverse)
    else none

/-- `fn has_image_suffix<P: AsRef<Path>>(file: P) -> bool` (`hashdb.rs`
lines 104-113): true iff the path's extension is (exactly, case
sensitively) one of `SUFFIXES`.  The `OsStr::to_str` step of the source
is always `Some` here because the model works on character lists. -/
def has_image_suffix (p : List Char) : Bool :=
  match rustExtension p with
  | some x => SUFFIXES.contains x
  | none => false

/-! ## Directory scanners (filter pipelines of `read_dir` /
`read_dir_recursive`) -/

/-- Kind of a filesystem directory entry, as reported by the OS. -/
inductive FileKind where
  | file
  | dir
  | other
deriving DecidableEq, BEq

/-- One entry yielded by `fs::read_dir` (flat) or `walkdir::WalkDir`
(recursive): its path, its kind, and the result of
`Path::canonicalize` (`none` when canonicalization fails, in which case
the entry is silently skipped by `.ok()` + `filter_map`). -/
structure DirEntry where
  path : List Char
  kind : FileKind
  canon : Option (List Char)

/-- The `fs_images` pipeline of `HashDB::read_dir` (lines 155-165):
keep entries whose path passes `has_image_suffix`, canonicalize,
silently dropping canonicalization failures.  Note: no file-kind check
appears in the source. -/
def read_dir_scan (entries : List DirEntry) : List (List Char) :=
  entries.filterMap fun e =>
    if has_image_suffix e.path then e.canon else none

/-- The `fs_images` pipeline of `HashDB::read_dir_recursive`
(lines 195-206): same as `read_dir_scan` but additionally requires
`p.is_file()`. -/
def read_dir_recursive_scan (entries : List DirEntry) : List (List Char) :=
  entries.filterMap fun e =>
    if has_image_suffix e.path && (e.kind == FileKind.file) then e.canon else none

/-! ## Fingerprints and Hamming distance -/

/-- A canonical path key, as its UTF-8 byte sequence. -/
abbrev Key := List Nat

/-- A perceptual-hash fingerprint, as its byte sequence
(`image_hasher::ImageHash::as_bytes`). -/
abbrev ImageHash := List Nat

/-- All entries of a byte sequence are in byte range. -/
def validBytes (l : List Nat) : Prop := ∀ b ∈ l, b < 256

instance (l : List Nat) : Decidable (validBytes l) :=
  inferInstanceAs (Decidable (∀ b ∈ l, b < 256))

/-- Number of set bits of a byte (`u8::count_ones` for values < 256). -/
def popCount8 (n : Nat) : Nat :=
  n % 2 + n / 2 % 2 + n / 4 % 2 + n / 8 % 2 +
    n / 16 % 2 + n / 32 % 2 + n / 64 % 2 + n / 128 % 2

/-- `image_hasher::ImageHash::dist`: the Hamming distance between two
fingerprints — the bytewise xor-popcount summed over the zipped byte
sequences. -/
def dist (a b : ImageHash) : Nat :=
  ((a.zip b).map fun p => popCount8 (p.1 ^^^ p.2)).sum

theorem dist_comm (a b : ImageHash) : dist a b = dist b a := by
  induction a generalizing b with
  | nil => cases b <;> rfl
  | cons x xs ih =>
    cases b with
    | nil => rfl
    | cons y ys => simp [dist, Nat.xor_comm] at ih ⊢; exact ih ys

set_option maxRecDepth 4000 in
theorem popCount8_eq_zero_aux : ∀ n < 256, (popCount8 n = 0 ↔ n = 0) := by decide

theorem popCount8_eq_zero {n : Nat} (h : n < 256) : popCount8 n = 0 ↔ n = 0 :=
  popCount8_eq_zero_aux n h

theorem xor_lt_256 {x y : Nat} (hx : x < 256) (hy : y < 256) : x ^^^ y < 256 :=
  Nat.bitwise_lt (f := bne) (n := 8) hx hy

theorem dist_eq_zero_iff {a b : ImageHash} (hlen : a.length = b.length)
    (ha : validBytes a) (hb : validBytes b) : dist a b = 0 ↔ a = b := by
  induction a generalizing b with
  | nil =>
    cases b with
    | nil => simp [dist]
    | cons y ys => simp at hlen
  | cons x xs ih =>
    cases b with
    | nil => simp at hlen
    | cons y ys =>
      have hx : x < 256 := ha x (by simp)
      have hy : y < 256 := hb y (by simp)
      have hxs : validBytes xs := fun b hm => ha b (by simp [hm])
      have hys : validBytes ys := fun b hm => hb b (by simp [hm])
      have hl : xs.length = ys.length := by simpa using hlen
      have hrec := ih hl hxs hys
      have hpc := popCount8_eq_zero (xor_lt_256 hx hy)
      constructor
      · intro h0
        simp only [dist, List.zip_cons_cons, List.map_cons, List.sum_cons,
          Nat.add_eq_zero] at h0
        have hxy : x = y := Nat.xor_eq_zero.mp (hpc.mp h0.1)
        have htail : xs = ys := hrec.mp (by simpa [dist] using h0.2)
        simp [hxy, htail]
      · intro h
        cases h
        simp only [dist, List.zip_cons_cons, List.map_cons, List.sum_cons,
          Nat.add_eq_zero]
        exact ⟨hpc.mpr (by simp), by simpa [dist] using hrec.mpr rfl⟩

/-! ## Claim theorems for classifier, scanner, distance -/

/-- **C7** — Path classifier: `has_image_suffix` returns true iff the
path's extension matches the fixed case-sensitive allowlist
`bmp, gif, jpg, jpeg, jxl, png, webp`; `.txt` is rejected, `.PNG`
(wrong case) is rejected, and each allowlisted suffix is accepted. -/
theorem has_image_suffix_spec :
    (∀ p : List Char,
      has_image_suffix p = true ↔
        ∃ e, rustExtension p = some e ∧ e ∈ SUFFIXES) ∧
    has_image_suffix "photo.txt".toList = false ∧
    has_image_suffix "photo.PNG".toList = false ∧
    has_image_suffix "photo.bmp".toList = true ∧
    has_image_suffix "photo.gif".toList = true ∧
    has_image_suffix "photo.jpg".toList = true ∧
    has_image_suffix "photo.jpeg".toList = true ∧
    has_image_suffix "photo.jxl".toList = true ∧
    has_image_suffix "photo.png".toList = true ∧
    has_image_suffix "photo.webp".toList = true := by
  refine ⟨fun p => ?_, by decide, by decide, by decide, by decide, by decide,
    by decide, by decide, by decide, by decide⟩
  unfold has_image_suffix
  cases h : rustExtension p with
  | none => simp
  | some x =>
    constructor
    · intro hm; exact ⟨x, rfl, List.elem_iff.mp hm⟩
    · rintro ⟨e, he, hm⟩; cases he; exact List.elem_iff.mpr hm

/-- **C9** — Fingerprint distance: for equal-length byte-valid
fingerprints, `dist` is symmetric, non-negative, and zero exactly on
bit-identical fingerprints. -/
theorem dist_spec (h1 h2 : ImageHash) (hlen : h1.length = h2.length)
    (hv1 : validBytes h1) (hv2 : validBytes h2) :
    dist h1 h2 = dist h2 h1 ∧ 0 ≤ dist h1 h2 ∧ (dist h1 h2 = 0 ↔ h1 = h2) :=
  ⟨dist_comm h1 h2, Nat.zero_le _, dist_eq_zero_iff hlen hv1 hv2⟩

/-- Witness for `dist_spec` at the concrete fingerprints `[3, 200]` and
`[5, 200]`. -/
theorem dist_spec_witness :
    ([3, 200] : ImageHash).length = ([5, 200] : ImageHash).length ∧
    validBytes [3, 200] ∧ validBytes [5, 200] ∧
    (dist [3, 200] [5, 200] = dist [5, 200] [3, 200] ∧
      0 ≤ dist [3, 200] [5, 200] ∧
      (dist [3, 200] [5, 200] = 0 ↔ ([3, 200] : ImageHash) = [5, 200])) :=
  ⟨rfl, by decide, by decide,
    dist_spec [3, 200] [5, 200] rfl (by decide) (by decide)⟩

/-- **C8** — the non-recursive scan of `HashDB::read_dir` has no
`is_file` check: a *directory* named `photos.png` (canonicalizing to
`/r/photos.png`) is included in its output, while the recursive scan of
`HashDB::read_dir_recursive` correctly excludes it. -/
theorem read_dir_scan_includes_directory :
    read_dir_scan
        [⟨"photos.png".toList, FileKind.dir, some "/r/photos.png".toList⟩] =
      ["/r/photos.png".toList] ∧
    read_dir_recursive_scan
        [⟨"photos.png".toList, FileKind.dir, some "/r/photos.png".toList⟩] =
      [] := by
  constructor <;> decide

/-! ## The hash store and the duplicate finder -/

/-- The backing store of `HashDB(HashMap<String, ImageHash>)`: an
association list from canonical-path key to fingerprint.  `HashMap`
semantics is captured by requiring `(dbKeys db).Nodup` in theorems;
list order models the (unspecified) iteration order. -/
abbrev HashDB := List (Key × ImageHash)

/-- The key set of the store (`self.0.keys()`). -/
def dbKeys (db : HashDB) : List Key := db.map Prod.fst

/-- All unordered 2-combinations of a list, each exactly once: the
model of `permutator::LargeCombinationIterator::new(&entries, 2)`. -/
def combinations2 {α : Type} : List α → List (α × α)
  | [] => []
  | x :: xs => xs.map (fun y => (x, y)) ++ combinations2 xs

/-- `HashDB::find_duplicates` (`hashdb.rs` lines 229-242): keep, from
every 2-combination of store entries, the name pair whose fingerprint
distance is strictly below the threshold. -/
def find_duplicates (db : HashDB) (threshold : Nat) : List (Key × Key) :=
  (combinations2 db).filterMap fun c =>
    if dist c.1.2 c.2.2 < threshold then some (c.1.1, c.2.1) else none

/-- Does `q` denote the unordered pair `{a, b}` (in either order)? -/
def pairMatches (a b : Key) (q : Key × Key) : Bool :=
  (decide (q.1 = a) && decide (q.2 = b)) || (decide (q.1 = b) && decide (q.2 = a))

theorem mem_combinations2_sublist {α : Type} {l : List α} {c : α × α}
    (h : c ∈ combinations2 l) : [c.1, c.2].Sublist l := by
  induction l with
  | nil => simp [combinations2] at h
  | cons x xs ih =>
    simp only [combinations2, List.mem_append, List.mem_map] at h
    rcases h with ⟨y, hy, rfl⟩ | h
    · exact List.Sublist.cons₂ x (List.singleton_sublist.mpr hy)
    · exact List.Sublist.cons x (ih h)

theorem countP_filterMap {α β : Type} (f : α → Option β) (p : β → Bool)
    (l : List α) :
    (l.filterMap f).countP p =
      l.countP fun a => ((f a).map p).getD false := by
  induction l with
  | nil => rfl
  | cons x xs ih =>
    cases hfx : f x <;>
      simp [List.filterMap_cons, hfx, List.countP_cons, ih]

theorem countP_key_unique (db : HashDB) (k : Key) (v : ImageHash)
    (q : Key × ImageHash → Bool) (hnd : (dbKeys db).Nodup) (hmem : (k, v) ∈ db) :
    db.countP (fun y => decide (y.1 = k) && q y) = if q (k, v) then 1 else 0 := by
  induction db with
  | nil => simp at hmem
  | cons e rest ih =>
    have hnd' : e.1 ∉ dbKeys rest ∧ (dbKeys rest).Nodup := by
      simpa [dbKeys, List.nodup_cons] using hnd
    rcases List.mem_cons.mp hmem with he | hmem'
    · have hrest : rest.countP (fun y => decide (y.1 = k) && q y) = 0 := by
        apply List.countP_eq_zero.mpr
        intro y hy
        have hne : y.1 ≠ k := by
          intro hk
          apply hnd'.1
          have hyk : y.1 ∈ dbKeys rest := List.mem_map_of_mem Prod.fst hy
          have hek : e.1 = k := by rw [← he]
          rw [hek, ← hk]
          exact hyk
        simp [hne]
      rw [List.countP_cons, hrest, ← he]
      simp
    · have hne : e.1 ≠ k := by
        intro hk
        apply hnd'.1
        have : k ∈ dbKeys rest := List.mem_map_of_mem Prod.fst hmem'
        rw [hk]; exact this
      rw [List.countP_cons, ih hnd'.2 hmem']
      simp [hne]

theorem mem_find_duplicates {db : HashDB} {t : Nat} {q : Key × Key}
    (h : q ∈ find_duplicates db t) :
    ∃ c : (Key × ImageHash) × (Key × ImageHash), c ∈ combinations2 db ∧
      dist c.1.2 c.2.2 < t ∧ q = (c.1.1, c.2.1) := by
  unfold find_duplicates at h
  rcases List.mem_filterMap.mp h with ⟨c, hc, hq⟩
  by_cases hd : dist c.1.2 c.2.2 < t
  · refine ⟨c, hc, hd, ?_⟩
    simp only [if_pos hd, Option.some.injEq] at hq
    exact hq.symm
  · simp [if_neg hd] at hq

theorem find_duplicates_countP_zero {db : HashDB} {t : Nat} {k1 k2 : Key}
    (h : k1 ∉ dbKeys db ∨ k2 ∉ dbKeys db) :
    (find_duplicates db t).countP (pairMatches k1 k2) = 0 := by
  apply List.countP_eq_zero.mpr
  intro q hq
  rcases mem_find_duplicates hq with ⟨c, hc, _, rfl⟩
  have hsub := mem_combinations2_sublist hc
  have hm1 : c.1 ∈ db := hsub.subset (by simp)
  have hm2 : c.2 ∈ db := hsub.subset (by simp)
  have hk1 : c.1.1 ∈ dbKeys db := List.mem_map_of_mem Prod.fst hm1
  have hk2 : c.2.1 ∈ dbKeys db := List.mem_map_of_mem Prod.fst hm2
  rcases h with h | h
  · have n1 : c.1.1 ≠ k1 := fun e => h (e ▸ hk1)
    have n2 : c.2.1 ≠ k1 := fun e => h (e ▸ hk2)
    simp [pairMatches, n1, n2]
  · have n1 : c.1.1 ≠ k2 := fun e => h (e ▸ hk1)
    have n2 : c.2.1 ≠ k2 := fun e => h (e ▸ hk2)
    simp [pairMatches, n1, n2]

theorem find_duplicates_cons (e : Key × ImageHash) (rest : HashDB) (t : Nat) :
    find_duplicates (e :: rest) t =
      rest.filterMap (fun y => if dist e.2 y.2 < t then some (e.1, y.1) else none)
        ++ find_duplicates rest t := by
  unfold find_duplicates
  have h1 : combinations2 (e :: rest) =
      rest.map (fun y => (e, y)) ++ combinations2 rest := rfl
  rw [h1, List.filterMap_append, List.filterMap_map]
  rfl

theorem find_duplicates_pair_count (db : HashDB) (t : Nat)
    (hkeys : (dbKeys db).Nodup) :
    ∀ k1 h1 k2 h2, (k1, h1) ∈ db → (k2, h2) ∈ db → k1 ≠ k2 →
      (find_duplicates db t).countP (pairMatches k1 k2) =
        if dist h1 h2 < t then 1 else 0 := by
  induction db with
  | nil => intro k1 h1 k2 h2 hm; simp at hm
  | cons e rest ih =>
    intro k1 h1 k2 h2 hm1 hm2 hne
    have hnd : e.1 ∉ dbKeys rest ∧ (dbKeys rest).Nodup := by
      simpa [dbKeys, List.nodup_cons] using hkeys
    rw [find_duplicates_cons, List.countP_append]
    by_cases hek1 : e.1 = k1
    · have he : e = (k1, h1) := by
        rcases List.mem_cons.mp hm1 with h | h
        · exact h.symm
        · exact absurd (hek1 ▸ List.mem_map_of_mem Prod.fst h) hnd.1
      have hm2' : (k2, h2) ∈ rest := by
        rcases List.mem_cons.mp hm2 with h | h
        · rw [← h] at he
          exact absurd (congrArg Prod.fst he).symm hne
        · exact h
      have hfront :
          (rest.filterMap fun y =>
              if dist e.2 y.2 < t then some (e.1, y.1) else none).countP
            (pairMatches k1 k2) = if dist h1 h2 < t then 1 else 0 := by
        rw [countP_filterMap]
        have hcongr :
            rest.countP (fun y =>
              (((if dist e.2 y.2 < t then some (e.1, y.1) else none).map
                (pairMatches k1 k2)).getD false)) =
            rest.countP (fun y => decide (y.1 = k2) && decide (dist h1 y.2 < t)) := by
          apply List.countP_congr
          intro y _
          rw [he]
          by_cases hd : dist h1 y.2 < t
          · simp [hd, pairMatches, hne, Bool.and_comm]
          · simp [hd]
        rw [hcongr, countP_key_unique rest k2 h2 _ hnd.2 hm2']
        by_cases hd : dist h1 h2 < t <;> simp [hd]
      have htail : (find_duplicates rest t).countP (pairMatches k1 k2) = 0 :=
        find_duplicates_countP_zero (Or.inl (hek1 ▸ hnd.1))
      rw [hfront, htail, Nat.add_zero]
    · by_cases hek2 : e.1 = k2
      · have he : e = (k2, h2) := by
          rcases List.mem_cons.mp hm2 with h | h
          · exact h.symm
          · exact absurd (hek2 ▸ List.mem_map_of_mem Prod.fst h) hnd.1
        have hm1' : (k1, h1) ∈ rest := by
          rcases List.mem_cons.mp hm1 with h | h
          · rw [← h] at he
            exact absurd (congrArg Prod.fst he) hne
          · exact h
        have hfront :
            (rest.filterMap fun y =>
                if dist e.2 y.2 < t then some (e.1, y.1) else none).countP
              (pairMatches k1 k2) = if dist h1 h2 < t then 1 else 0 := by
          rw [countP_filterMap]
          have hcongr :
              rest.countP (fun y =>
                (((if dist e.2 y.2 < t then some (e.1, y.1) else none).map
                  (pairMatches k1 k2)).getD false)) =
              rest.countP (fun y => decide (y.1 = k1) && decide (dist h2 y.2 < t)) := by
            apply List.countP_congr
            intro y _
            rw [he]
            by_cases hd : dist h2 y.2 < t
            · simp [hd, pairMatches, Ne.symm hne, Bool.and_comm]
            · simp [hd]
          rw [hcongr, countP_key_unique rest k1 h1 _ hnd.2 hm1']
          rw [dist_comm h2 h1]
          by_cases hd : dist h1 h2 < t <;> simp [hd]
        have htail : (find_duplicates rest t).countP (pairMatches k1 k2) = 0 :=
          find_duplicates_countP_zero (Or.inr (hek2 ▸ hnd.1))
        rw [hfront, htail, Nat.add_zero]
      · have hm1' : (k1, h1) ∈ rest := by
          rcases List.mem_cons.mp hm1 with h | h
          · exact absurd (congrArg Prod.fst h).symm hek1
          · exact h
        have hm2' : (k2, h2) ∈ rest := by
          rcases List.mem_cons.mp hm2 with h | h
          · exact absurd (congrArg Prod.fst h).symm hek2
          · exact h
        have hfront :
            (rest.filterMap fun y =>
                if dist e.2 y.2 < t then some (e.1, y.1) else none).countP
              (pairMatches k1 k2) = 0 := by
          rw [countP_filterMap]
          apply List.countP_eq_zero.mpr
          intro y _
          by_cases hd : dist e.2 y.2 < t
          · simp [hd, pairMatches, hek1, hek2]
          · simp [hd]
        rw [hfront, ih hnd.2 k1 h1 k2 h2 hm1' hm2' hne, Nat.zero_add]

/-- **C4** — Duplicate finder: over a store with distinct keys,
`find_duplicates` never pairs an entry with itself, every returned pair
comes from two store entries at fingerprint distance below the
threshold, and each unordered pair of distinct entries is reported
exactly once when its distance is below the threshold and zero times
otherwise. -/
theorem find_duplicates_spec (db : HashDB) (t : Nat)
    (hkeys : (dbKeys db).Nodup) :
    (∀ q ∈ find_duplicates db t, q.1 ≠ q.2) ∧
    (∀ q ∈ find_duplicates db t,
      ∃ h1 h2, (q.1, h1) ∈ db ∧ (q.2, h2) ∈ db ∧ dist h1 h2 < t) ∧
    (∀ k1 h1 k2 h2, (k1, h1) ∈ db → (k2, h2) ∈ db → k1 ≠ k2 →
      (find_duplicates db t).countP (pairMatches k1 k2) =
        if dist h1 h2 < t then 1 else 0) := by
  refine ⟨?_, ?_, find_duplicates_pair_count db t hkeys⟩
  · intro q hq
    rcases mem_find_duplicates hq with ⟨c, hc, _, rfl⟩
    have hsub := mem_combinations2_sublist hc
    have hmap : [c.1.1, c.2.1].Sublist (dbKeys db) := by
      have hs := hsub.map Prod.fst
      simpa [dbKeys] using hs
    have hnd : ([c.1.1, c.2.1] : List Key).Nodup := hkeys.sublist hmap
    simp only [List.nodup_cons, List.mem_singleton, List.nodup_nil,
      and_true] at hnd
    exact hnd.1
  · intro q hq
    rcases mem_find_duplicates hq with ⟨c, hc, hd, rfl⟩
    have hsub := mem_combinations2_sublist hc
    refine ⟨c.1.2, c.2.2, ?_, ?_, hd⟩
    · have hm : c.1 ∈ db := hsub.subset (by simp)
      simpa using hm
    · have hm : c.2 ∈ db := hsub.subset (by simp)
      simpa using hm

/-- The 4-entry store of the spec's worked example: entries 1 and 2 at
distance 3, entries 3 and 4 at distance 20, all cross distances ≥ 10. -/
def db4 : HashDB :=
  [([1], [0, 0, 0, 0]), ([2], [7, 0, 0, 0]),
   ([3], [255, 255, 255, 255]), ([4], [0, 0, 240, 255])]

/-- Witness for `find_duplicates_spec` on the spec's 4-entry example at
threshold 10, where the result is exactly the single pair (1, 2). -/
theorem find_duplicates_spec_witness :
    (dbKeys db4).Nodup ∧
    ((∀ q ∈ find_duplicates db4 10, q.1 ≠ q.2) ∧
      (∀ q ∈ find_duplicates db4 10,
        ∃ h1 h2, (q.1, h1) ∈ db4 ∧ (q.2, h2) ∈ db4 ∧ dist h1 h2 < 10) ∧
      (∀ k1 h1 k2 h2, (k1, h1) ∈ db4 → (k2, h2) ∈ db4 → k1 ≠ k2 →
        (find_duplicates db4 10).countP (pairMatches k1 k2) =
          if dist h1 h2 < 10 then 1 else 0)) ∧
    dist [0, 0, 0, 0] [7, 0, 0, 0] = 3 ∧
    dist [255, 255, 255, 255] [0, 0, 240, 255] = 20 ∧
    find_duplicates db4 10 = [([1], [2])] :=
  ⟨by decide, find_duplicates_spec db4 10 (by decide), by decide, by decide,
    by decide⟩

/-- **C5** — Threshold 0: `find_duplicates` at threshold 0 always
returns the empty list (no fingerprint is at distance strictly below
0 from any other, identical or not). -/
theorem find_duplicates_threshold_zero (db : HashDB) :
    find_duplicates db 0 = [] := by
  unfold find_duplicates
  apply List.filterMap_eq_nil_iff.mpr
  intro c _
  simp

/-! ## Filesystem synchronization (`read_dir` / `read_dir_recursive`) -/

/-- The error type of `hashdb.rs` (`HashDBError`), restricted to the
variants the synchronization path can produce. -/
inductive HashDBError where
  | imageError (path : Key)
  | ioError
deriving DecidableEq

/-- `fs_images.difference(&db_images)`: present on disk, not yet known. -/
def toAdd (db : HashDB) (present : List Key) : List Key :=
  present.filter fun p => !(dbKeys db).contains p

/-- `db_images.difference(&fs_images)`: known, no longer on disk. -/
def toRemove (db : HashDB) (present : List Key) : List Key :=
  (dbKeys db).filter fun k => !present.contains k

/-- `hash_image` for an already-canonical path `p`: on success the pair
is keyed by `p.canonicalize()`, which is `p` itself since scanner
output is canonical. -/
def hashEntry (hash : Key → Except HashDBError ImageHash) (p : Key) :
    Except HashDBError (Key × ImageHash) :=
  match hash p with
  | .error e => .error e
  | .ok h => .ok (p, h)

/-- `collect::<Result<Vec<_>, _>>()`: all-or-nothing collection of the
per-path fingerprinting results. -/
def collectResults (f : Key → Except HashDBError (Key × ImageHash)) :
    List Key → Except HashDBError (List (Key × ImageHash))
  | [] => .ok []
  | p :: ps =>
    match f p with
    | .error e => .error e
    | .ok x =>
      match collectResults f ps with
      | .error e => .error e
      | .ok xs => .ok (x :: xs)

/-- `HashMap::insert`: replace the value under an existing key, append
a fresh key. -/
def dbInsert (db : HashDB) (k : Key) (v : ImageHash) : HashDB :=
  if db.any (fun e => decide (e.1 = k)) then
    db.map fun e => if e.1 = k then (k, v) else e
  else db ++ [(k, v)]

/-- `HashMap::remove`. -/
def dbRemove (db : HashDB) (k : Key) : HashDB :=
  db.filter fun e => !decide (e.1 = k)

/-- `HashMap::get`-style lookup. -/
def dbLookup (db : HashDB) (k : Key) : Option ImageHash :=
  (db.find? fun e => decide (e.1 = k)).map Prod.snd

/-- `HashDB::read_dir` / `read_dir_recursive` (`hashdb.rs` lines
146-183 / 188-224), with the scanner output `present` passed in.
Statement order mirrors the source: hash everything in `to_add`
all-or-nothing (the `?` on the collected result returns *before* any
insertion, leaving the store untouched), then insert every computed
pair, then remove every `to_remove` key. -/
def read_dir (hash : Key → Except HashDBError ImageHash) (db : HashDB)
    (present : List Key) : Except HashDBError Unit × HashDB :=
  match collectResults (hashEntry hash) (toAdd db present) with
  | .error e => (.error e, db)
  | .ok hs =>
    let afterAdd := hs.foldl (fun d x => dbInsert d x.1 x.2) db
    (.ok (), (toRemove db present).foldl (fun d k => dbRemove d k) afterAdd)

/-! ### Helper lemmas about the synchronization pieces -/

theorem mem_dbKeys {db : HashDB} {k : Key} :
    k ∈ dbKeys db ↔ ∃ v, (k, v) ∈ db := by
  constructor
  · intro h
    rcases List.mem_map.mp h with ⟨e, he, rfl⟩
    exact ⟨e.2, by simpa using he⟩
  · rintro ⟨v, hv⟩
    exact List.mem_map_of_mem Prod.fst hv

theorem mem_toAdd {db : HashDB} {present : List Key} {k : Key} :
    k ∈ toAdd db present ↔ k ∈ present ∧ k ∉ dbKeys db := by
  unfold toAdd
  rw [List.mem_filter]
  simp [List.elem_iff]

theorem mem_toRemove {db : HashDB} {present : List Key} {k : Key} :
    k ∈ toRemove db present ↔ k ∈ dbKeys db ∧ k ∉ present := by
  unfold toRemove
  rw [List.mem_filter]
  simp [List.elem_iff]

theorem contains_eq_true_iff {l : List Key} {a : Key} :
    l.contains a = true ↔ a ∈ l := List.elem_iff

theorem contains_eq_false_iff {l : List Key} {a : Key} :
    l.contains a = false ↔ a ∉ l := by
  constructor
  · intro h hm
    rw [contains_eq_true_iff.mpr hm] at h
    cases h
  · intro h
    cases hc : l.contains a
    · rfl
    · exact absurd (contains_eq_true_iff.mp hc) h

theorem collectResults_error {f : Key → Except HashDBError (Key × ImageHash)}
    {l : List Key} {p : Key} (hp : p ∈ l) {e : HashDBError}
    (he : f p = .error e) : ∃ e2, collectResults f l = .error e2 := by
  induction l with
  | nil => simp at hp
  | cons q qs ih =>
    rcases List.mem_cons.mp hp with rfl | hp'
    · exact ⟨e, by simp [collectResults, he]⟩
    · cases hfq : f q with
      | error e2 => exact ⟨e2, by simp [collectResults, hfq]⟩
      | ok x =>
        rcases ih hp' with ⟨e2, hcol⟩
        exact ⟨e2, by simp [collectResults, hfq, hcol]⟩

theorem collectResults_ok_of_forall
    {f : Key → Except HashDBError (Key × ImageHash)} {l : List Key}
    (h : ∀ p ∈ l, ∃ x, f p = .ok x) :
    ∃ xs, collectResults f l = .ok xs := by
  induction l with
  | nil => exact ⟨[], rfl⟩
  | cons q qs ih =>
    rcases h q (by simp) with ⟨x, hx⟩
    rcases ih (fun p hp => h p (by simp [hp])) with ⟨xs, hxs⟩
    exact ⟨x :: xs, by simp [collectResults, hx, hxs]⟩

theorem hashEntry_ok {hash : Key → Except HashDBError ImageHash} {p : Key}
    {x : Key × ImageHash} (h : hashEntry hash p = .ok x) :
    x.1 = p ∧ hash p = .ok x.2 := by
  unfold hashEntry at h
  cases hh : hash p with
  | error e => rw [hh] at h; cases h
  | ok v =>
    rw [hh] at h
    have hx : (p, v) = x := by injection h
    subst hx
    exact ⟨rfl, rfl⟩

theorem collectResults_ok_shape {hash : Key → Except HashDBError ImageHash} :
    ∀ {l : List Key} {xs : List (Key × ImageHash)},
      collectResults (hashEntry hash) l = .ok xs →
      xs.map Prod.fst = l ∧ ∀ x ∈ xs, hash x.1 = .ok x.2 := by
  intro l
  induction l with
  | nil =>
    intro xs h
    have hx : ([] : List (Key × ImageHash)) = xs := by injection h
    rw [← hx]
    exact ⟨rfl, by simp⟩
  | cons q qs ih =>
    intro xs h
    unfold collectResults at h
    cases hfq : hashEntry hash q with
    | error e => rw [hfq] at h; cases h
    | ok x =>
      rw [hfq] at h
      cases hcol : collectResults (hashEntry hash) qs with
      | error e => rw [hcol] at h; cases h
      | ok ys =>
        rw [hcol] at h
        have hx : x :: ys = xs := by injection h
        rcases ih hcol with ⟨hkeys, hvals⟩
        rcases hashEntry_ok hfq with ⟨hx1, hx2⟩
        rw [← hx]
        constructor
        · simp [hkeys, hx1]
        · intro y hy
          rcases List.mem_cons.mp hy with rfl | hy'
          · rw [hx1]; exact hx2
          · exact hvals y hy'

theorem dbLookup_cons_pos {e : Key × ImageHash} {rest : HashDB} {k : Key}
    (h : e.1 = k) : dbLookup (e :: rest) k = some e.2 := by
  unfold dbLookup
  rw [List.find?_cons_of_pos _ (by simp [h])]
  rfl

theorem dbLookup_cons_neg {e : Key × ImageHash} {rest : HashDB} {k : Key}
    (h : e.1 ≠ k) : dbLookup (e :: rest) k = dbLookup rest k := by
  unfold dbLookup
  rw [List.find?_cons_of_neg _ (by simp [h])]

theorem dbLookup_of_mem : ∀ {db : HashDB} {k : Key} {v : ImageHash},
    (dbKeys db).Nodup → (k, v) ∈ db → dbLookup db k = some v := by
  intro db
  induction db with
  | nil => intro k v _ hm; simp at hm
  | cons e rest ih =>
    intro k v hnd hm
    have hnd' : e.1 ∉ dbKeys rest ∧ (dbKeys rest).Nodup := by
      simpa [dbKeys, List.nodup_cons] using hnd
    rcases List.mem_cons.mp hm with he | hm'
    · rw [dbLookup_cons_pos (by rw [← he])]
      rw [← he]
    · have hne : e.1 ≠ k := fun hek =>
        hnd'.1 (hek ▸ List.mem_map_of_mem Prod.fst hm')
      rw [dbLookup_cons_neg hne]
      exact ih hnd'.2 hm'

theorem dbLookup_eq_none {db : HashDB} {k : Key} (h : k ∉ dbKeys db) :
    dbLookup db k = none := by
  unfold dbLookup
  have hf : db.find? (fun e => decide (e.1 = k)) = none := by
    rw [List.find?_eq_none]
    intro x hx
    simp only [decide_eq_true_eq]
    exact fun he => h (he ▸ List.mem_map_of_mem Prod.fst hx)
  rw [hf]
  rfl

theorem dbLookup_append_right : ∀ (db1 db2 : HashDB) (k : Key),
    k ∉ dbKeys db1 → dbLookup (db1 ++ db2) k = dbLookup db2 k
  | [], _, _, _ => rfl
  | e :: rest, db2, k, h => by
    have hmem : k ∉ dbKeys (e :: rest) := h
    simp only [dbKeys, List.map_cons, List.mem_cons, not_or] at hmem
    have hne : e.1 ≠ k := fun hek => hmem.1 hek.symm
    rw [List.cons_append, dbLookup_cons_neg hne]
    exact dbLookup_append_right rest db2 k hmem.2

theorem dbLookup_append_left : ∀ (db1 db2 : HashDB) (k : Key),
    k ∈ dbKeys db1 → dbLookup (db1 ++ db2) k = dbLookup db1 k
  | [], _, k, h => by simp [dbKeys] at h
  | e :: rest, db2, k, h => by
    by_cases hek : e.1 = k
    · rw [List.cons_append, dbLookup_cons_pos hek, dbLookup_cons_pos hek]
    · have h' : k ∈ dbKeys rest := by
        simp only [dbKeys, List.map_cons, List.mem_cons] at h
        rcases h with h | h
        · exact absurd h.symm hek
        · exact h
      rw [List.cons_append, dbLookup_cons_neg hek, dbLookup_cons_neg hek]
      exact dbLookup_append_left rest db2 k h'

theorem dbLookup_filter_true {q : Key × ImageHash → Bool} :
    ∀ {db : HashDB} {k : Key}, (∀ e ∈ db, e.1 = k → q e = true) →
      dbLookup (db.filter q) k = dbLookup db k := by
  intro db
  induction db with
  | nil => intro k _; rfl
  | cons e rest ih =>
    intro k h
    by_cases hek : e.1 = k
    · have hqe : q e = true := h e (by simp) hek
      rw [List.filter_cons_of_pos hqe, dbLookup_cons_pos hek,
        dbLookup_cons_pos hek]
    · cases hqe : q e with
      | true =>
        rw [List.filter_cons_of_pos hqe, dbLookup_cons_neg hek,
          dbLookup_cons_neg hek]
        exact ih fun e' he' => h e' (by simp [he'])
      | false =>
        rw [List.filter_cons_of_neg (by simp [hqe]), dbLookup_cons_neg hek]
        exact ih fun e' he' => h e' (by simp [he'])

theorem dbLookup_filter_false {q : Key × ImageHash → Bool} :
    ∀ {db : HashDB} {k : Key}, (∀ e ∈ db, e.1 = k → q e = false) →
      dbLookup (db.filter q) k = none := by
  intro db
  induction db with
  | nil => intro k _; rfl
  | cons e rest ih =>
    intro k h
    cases hqe : q e with
    | true =>
      have hek : e.1 ≠ k := fun he => by
        rw [h e (by simp) he] at hqe; cases hqe
      rw [List.filter_cons_of_pos hqe, dbLookup_cons_neg hek]
      exact ih fun e' he' => h e' (by simp [he'])
    | false =>
      rw [List.filter_cons_of_neg (by simp [hqe])]
      exact ih fun e' he' => h e' (by simp [he'])

theorem dbInsert_fresh {db : HashDB} {k : Key} (hk : k ∉ dbKeys db)
    (v : ImageHash) : dbInsert db k v = db ++ [(k, v)] := by
  unfold dbInsert
  rw [if_neg]
  intro hany
  rcases List.any_eq_true.mp hany with ⟨e, he, hek⟩
  exact hk (decide_eq_true_eq.mp hek ▸ List.mem_map_of_mem Prod.fst he)

theorem foldl_insert_fresh : ∀ (hs : List (Key × ImageHash)) (db : HashDB),
    (∀ x ∈ hs, x.1 ∉ dbKeys db) → (hs.map Prod.fst).Nodup →
    hs.foldl (fun d x => dbInsert d x.1 x.2) db = db ++ hs
  | [], db, _, _ => by simp
  | x :: hs, db, hfresh, hnd => by
    have hnd0 : x.1 ∉ hs.map Prod.fst ∧ (hs.map Prod.fst).Nodup := by
      simpa [List.nodup_cons] using hnd
    have h1 : x.1 ∉ dbKeys db := hfresh x (by simp)
    rw [List.foldl_cons, dbInsert_fresh h1]
    have hfresh' : ∀ y ∈ hs, y.1 ∉ dbKeys (db ++ [(x.1, x.2)]) := by
      intro y hy
      simp only [dbKeys, List.map_append, List.mem_append, List.map_cons,
        List.map_nil, List.mem_singleton, not_or]
      constructor
      · exact hfresh y (by simp [hy])
      · intro he
        exact hnd0.1 (he ▸ List.mem_map_of_mem Prod.fst hy)
    rw [foldl_insert_fresh hs (db ++ [(x.1, x.2)]) hfresh' hnd0.2]
    simp

theorem foldl_remove_eq_filter : ∀ (ks : List Key) (db : HashDB),
    ks.foldl (fun d k => dbRemove d k) db =
      db.filter fun e => !ks.contains e.1
  | [], db => by simp
  | k :: ks, db => by
    rw [List.foldl_cons, foldl_remove_eq_filter ks (dbRemove db k)]
    unfold dbRemove
    rw [List.filter_filter]
    apply List.filter_congr
    intro e _
    by_cases hek : e.1 = k <;> cases hc : ks.contains e.1 <;>
      simp [hek, hc, List.elem_iff] <;> simp [List.elem_iff] at hc <;>
        simp [hc]

theorem read_dir_unchanged (hash : Key → Except HashDBError ImageHash)
    (db : HashDB) (present : List Key)
    (hsame : ∀ k, k ∈ present ↔ k ∈ dbKeys db) :
    read_dir hash db present = (.ok (), db) := by
  have hadd : toAdd db present = [] := by
    rw [List.eq_nil_iff_forall_not_mem]
    intro p hp
    rcases mem_toAdd.mp hp with ⟨hp1, hp2⟩
    exact hp2 ((hsame p).mp hp1)
  have hrem : toRemove db present = [] := by
    rw [List.eq_nil_iff_forall_not_mem]
    intro p hp
    rcases mem_toRemove.mp hp with ⟨hp1, hp2⟩
    exact hp2 ((hsame p).mpr hp1)
  unfold read_dir
  rw [hadd, hrem]
  rfl

theorem read_dir_ok_shape {hash : Key → Except HashDBError ImageHash}
    {db : HashDB} {present : List Key} {hs : List (Key × ImageHash)}
    (hcol : collectResults (hashEntry hash) (toAdd db present) = .ok hs)
    (hpres : present.Nodup) :
    read_dir hash db present =
      (.ok (), (db ++ hs).filter fun e => !(toRemove db present).contains e.1) := by
  have hshape := collectResults_ok_shape hcol
  have hnd : (hs.map Prod.fst).Nodup := by
    rw [hshape.1]
    exact hpres.filter _
  have hfresh : ∀ x ∈ hs, x.1 ∉ dbKeys db := by
    intro x hx
    have hxa : x.1 ∈ toAdd db present :=
      hshape.1 ▸ List.mem_map_of_mem Prod.fst hx
    exact (mem_toAdd.mp hxa).2
  unfold read_dir
  rw [hcol]
  simp only []
  rw [foldl_insert_fresh hs db hfresh hnd, foldl_remove_eq_filter]

/-! ### Claim theorems for synchronization -/

/-- **C2** — Sync failure atomicity: if fingerprinting any path in
`to_add` (present minus known) fails, the whole call returns an error
and the store is left exactly as it was: no insertion from the failed
batch and no removal is applied. -/
theorem read_dir_error_atomic (hash : Key → Except HashDBError ImageHash)
    (db : HashDB) (present : List Key) (p : Key) (e : HashDBError)
    (hp : p ∈ present) (hnew : p ∉ dbKeys db) (hfail : hash p = .error e) :
    (∃ e2, (read_dir hash db present).1 = .error e2) ∧
    (read_dir hash db present).2 = db := by
  have hpa : p ∈ toAdd db present := mem_toAdd.mpr ⟨hp, hnew⟩
  have hfe : hashEntry hash p = .error e := by
    unfold hashEntry
    rw [hfail]
  rcases collectResults_error hpa hfe with ⟨e2, hcol⟩
  unfold read_dir
  rw [hcol]
  exact ⟨⟨e2, rfl⟩, rfl⟩

/-- A concrete fingerprinting oracle that fails on path `[1]`. -/
def hashW (p : Key) : Except HashDBError ImageHash :=
  if p = [1] then .error (.imageError p) else .ok [40]

/-- A concrete fingerprinting oracle that always succeeds. -/
def hashOk (_ : Key) : Except HashDBError ImageHash := .ok [9]

/-- Witness for `read_dir_error_atomic`: syncing the store `{[2] ↦ [5]}`
against `present = [[1], [2]]` with an oracle failing on `[1]` errors
out and leaves the store untouched. -/
theorem read_dir_error_atomic_witness :
    ([1] : Key) ∈ [[1], [2]] ∧
    ((∃ e2, (read_dir hashW [([2], [5])] [[1], [2]]).1 = .error e2) ∧
      (read_dir hashW [([2], [5])] [[1], [2]]).2 = [([2], [5])]) :=
  ⟨by decide,
    read_dir_error_atomic hashW [([2], [5])] [[1], [2]] [1]
      (.imageError [1]) (by decide) (by decide) rfl⟩

/-- **C3** — Sync reconciliation: a successful sync inserts exactly the
freshly computed fingerprints of `present − known`, removes exactly
`known − present`, leaves every key in both untouched (same stored
fingerprint, nothing recomputed), and a sync against an unchanged
directory performs no hashing at all — its result is `(ok, db)` for
*every* fingerprinting oracle. -/
theorem read_dir_reconciliation (hash : Key → Except HashDBError ImageHash)
    (db : HashDB) (present : List Key)
    (hkeys : (dbKeys db).Nodup) (hpres : present.Nodup)
    (hok : ∀ p ∈ present, p ∉ dbKeys db → ∃ h, hash p = .ok h) :
    (read_dir hash db present).1 = .ok () ∧
    (∀ p h, p ∈ present → p ∉ dbKeys db → hash p = .ok h →
      dbLookup (read_dir hash db present).2 p = some h) ∧
    (∀ p, p ∈ dbKeys db → p ∉ present →
      dbLookup (read_dir hash db present).2 p = none) ∧
    (∀ p, p ∈ dbKeys db → p ∈ present →
      dbLookup (read_dir hash db present).2 p = dbLookup db p) ∧
    (∀ hash2, (∀ k, k ∈ present ↔ k ∈ dbKeys db) →
      read_dir hash2 db present = (.ok (), db)) := by
  have hokta : ∀ p ∈ toAdd db present, ∃ x, hashEntry hash p = .ok x := by
    intro p hpa
    rcases mem_toAdd.mp hpa with ⟨hp1, hp2⟩
    rcases hok p hp1 hp2 with ⟨h, hh⟩
    refine ⟨(p, h), ?_⟩
    unfold hashEntry
    rw [hh]
  rcases collectResults_ok_of_forall hokta with ⟨hs, hcol⟩
  have hshape := collectResults_ok_shape hcol
  have hrd := read_dir_ok_shape hcol hpres
  rw [hrd]
  have hkeep : ∀ {p : Key}, p ∈ present →
      ∀ e ∈ db ++ hs, e.1 = p →
        (!(toRemove db present).contains e.1) = true := by
    intro p hp e _ hep
    have hnr : p ∉ toRemove db present := fun hr => (mem_toRemove.mp hr).2 hp
    rw [hep, contains_eq_false_iff.mpr hnr]
    rfl
  refine ⟨rfl, ?_, ?_, ?_,
    fun hash2 hsame => read_dir_unchanged hash2 db present hsame⟩
  · intro p h hp hnew hh
    rw [dbLookup_filter_true (hkeep hp), dbLookup_append_right db hs p hnew]
    obtain ⟨x, hx, hx1⟩ : ∃ x ∈ hs, x.1 = p := by
      have hpm : p ∈ hs.map Prod.fst := hshape.1 ▸ mem_toAdd.mpr ⟨hp, hnew⟩
      rcases List.mem_map.mp hpm with ⟨x, hx, he⟩
      exact ⟨x, hx, he⟩
    have hh2 : hash p = .ok x.2 := hx1 ▸ hshape.2 x hx
    rw [hh] at hh2
    have hv : h = x.2 := by injection hh2
    have hnd_hs : (dbKeys hs).Nodup := by
      show (hs.map Prod.fst).Nodup
      rw [hshape.1]
      exact hpres.filter _
    have hxm : (p, x.2) ∈ hs := by
      rw [← hx1]
      simpa using hx
    rw [dbLookup_of_mem hnd_hs hxm, hv]
  · intro p hkp hnp
    apply dbLookup_filter_false
    intro e _ hep
    have hpr : p ∈ toRemove db present := mem_toRemove.mpr ⟨hkp, hnp⟩
    rw [hep, contains_eq_true_iff.mpr hpr]
    rfl
  · intro p hkp hpp
    rw [dbLookup_filter_true (hkeep hpp), dbLookup_append_left db hs p hkp]

/-- Witness for `read_dir_reconciliation`: syncing `{[2] ↦ [5], [3] ↦ [6]}`
against `present = [[1], [2]]` stores the fresh fingerprint of `[1]`. -/
theorem read_dir_reconciliation_witness :
    dbLookup (read_dir hashOk [([2], [5]), ([3], [6])] [[1], [2]]).2 [1] =
      some [9] :=
  (read_dir_reconciliation hashOk [([2], [5]), ([3], [6])] [[1], [2]]
    (by decide) (by decide) (fun p _ _ => ⟨[9], rfl⟩)).2.1
    [1] [9] (by decide) (by decide) rfl

/-- **C6** — Sync idempotence: running the sync twice with the same
directory state leaves the store after the second call equal to the
store after the first call. -/
theorem read_dir_idempotent (hash : Key → Except HashDBError ImageHash)
    (db : HashDB) (present : List Key) (hpres : present.Nodup) :
    (read_dir hash (read_dir hash db present).2 present).2 =
      (read_dir hash db present).2 := by
  cases hcol : collectResults (hashEntry hash) (toAdd db present) with
  | error e =>
    have h2 : (read_dir hash db present).2 = db := by
      unfold read_dir
      rw [hcol]
    rw [h2]
    exact h2
  | ok hs =>
    have hshape := collectResults_ok_shape hcol
    have hrd := read_dir_ok_shape hcol hpres
    have hsame : ∀ k, k ∈ present ↔ k ∈ dbKeys (read_dir hash db present).2 := by
      intro k
      rw [hrd]
      simp only [mem_dbKeys]
      constructor
      · intro hkp
        by_cases hkdb : k ∈ dbKeys db
        · rcases mem_dbKeys.mp hkdb with ⟨v, hv⟩
          refine ⟨v, List.mem_filter.mpr ⟨List.mem_append.mpr (Or.inl hv), ?_⟩⟩
          have hnr : k ∉ toRemove db present := fun hr =>
            (mem_toRemove.mp hr).2 hkp
          show (!(toRemove db present).contains k) = true
          rw [contains_eq_false_iff.mpr hnr]
          rfl
        · have hpm : k ∈ hs.map Prod.fst := hshape.1 ▸ mem_toAdd.mpr ⟨hkp, hkdb⟩
          rcases List.mem_map.mp hpm with ⟨x, hx, he⟩
          refine ⟨x.2, List.mem_filter.mpr
            ⟨List.mem_append.mpr (Or.inr (by rw [← he]; simpa using hx)), ?_⟩⟩
          have hnr : k ∉ toRemove db present := fun hr =>
            hkdb (mem_toRemove.mp hr).1
          show (!(toRemove db present).contains k) = true
          rw [contains_eq_false_iff.mpr hnr]
          rfl
      · rintro ⟨v, hv⟩
        rcases List.mem_filter.mp hv with ⟨hmem, hq⟩
        by_cases hkp : k ∈ present
        · exact hkp
        · exfalso
          rcases List.mem_append.mp hmem with hdb | hhs
          · have hkdb : k ∈ dbKeys db := mem_dbKeys.mpr ⟨v, hdb⟩
            have hkr : k ∈ toRemove db present := mem_toRemove.mpr ⟨hkdb, hkp⟩
            have hq2 : (toRemove db present).contains k = false := by
              simpa using hq
            exact absurd hkr (contains_eq_false_iff.mp hq2)
          · have hka : k ∈ toAdd db present := by
              rw [← hshape.1]
              exact List.mem_map_of_mem Prod.fst hhs
            exact hkp (mem_toAdd.mp hka).1
    have hu := read_dir_unchanged hash (read_dir hash db present).2 present hsame
    rw [hu]

/-- Witness for `read_dir_idempotent` on a concrete store, directory
state and oracle. -/
theorem read_dir_idempotent_witness :
    (read_dir hashOk (read_dir hashOk [([3], [6])] [[1], [2]]).2 [[1], [2]]).2 =
      (read_dir hashOk [([3], [6])] [[1], [2]]).2 :=
  read_dir_idempotent hashOk [([3], [6])] [[1], [2]] (by decide)

/-! ## Persistence codec (`to_file` / `from_file`)

`to_file` serializes the map with `rmp_serde` (`BytesMode::ForceAll`,
so fingerprints are written as MessagePack *bin* byte strings, keys as
*str*, the map with a *map* header) and pipes the bytes through a zlib
encoder; `from_file` reverses both steps.  The MessagePack layer is
embedded exactly (headers, length sizes and big-endian length fields as
`rmp` writes them); the zlib layer is a third-party inverse pair of
byte-stream transformations and is passed in as such. -/

/-- Big-endian encoding of `n` in exactly `k` bytes (most significant
first); the format always fits because callers check `n < 256 ^ k`. -/
def beBytes : Nat → Nat → List Nat
  | 0, _ => []
  | k + 1, n => n / 256 ^ k :: beBytes k (n % 256 ^ k)

/-- Read `k` big-endian bytes, accumulating into `acc`. -/
def readBE : Nat → Nat → List Nat → Option (Nat × List Nat)
  | 0, acc, bs => some (acc, bs)
  | _ + 1, _, [] => none
  | k + 1, acc, b :: bs => readBE k (acc * 256 + b) bs

/-- Split off exactly `n` leading bytes. -/
def takeN (n : Nat) (bs : List Nat) : Option (List Nat × List Nat) :=
  if n ≤ bs.length then some (bs.take n, bs.drop n) else none

/-- `rmp::encode::write_str`: fixstr below 32, str8 below 256, str16
below 65536, str32 otherwise. -/
def encodeStr (s : List Nat) : List Nat :=
  if s.length < 32 then (160 + s.length) :: s
  else if s.length < 256 then 217 :: s.length :: s
  else if s.length < 65536 then 218 :: (beBytes 2 s.length ++ s)
  else 219 :: (beBytes 4 s.length ++ s)

/-- The str-family decoder of `rmp_serde` (markers 0xa0-0xbf, 0xd9,
0xda, 0xdb). -/
def decodeStr : List Nat → Option (List Nat × List Nat)
  | [] => none
  | b :: rest =>
    if 160 ≤ b ∧ b ≤ 191 then takeN (b - 160) rest
    else if b = 217 then
      match rest with
      | [] => none
      | n :: rest2 => takeN n rest2
    else if b = 218 then
      match readBE 2 0 rest with
      | none => none
      | some (n, rest2) => takeN n rest2
    else if b = 219 then
      match readBE 4 0 rest with
      | none => none
      | some (n, rest2) => takeN n rest2
    else none

/-- `rmp::encode::write_bin` (forced by `BytesMode::ForceAll`): bin8
below 256, bin16 below 65536, bin32 otherwise. -/
def encodeBin (s : List Nat) : List Nat :=
  if s.length < 256 then 196 :: s.length :: s
  else if s.length < 65536 then 197 :: (beBytes 2 s.length ++ s)
  else 198 :: (beBytes 4 s.length ++ s)

/-- The bin-family decoder of `rmp_serde` (markers 0xc4, 0xc5, 0xc6);
`ImageHash::<Box<[u8]>>::from_bytes` accepts any byte string, so the
payload is taken as-is. -/
def decodeBin : List Nat → Option (List Nat × List Nat)
  | [] => none
  | b :: rest =>
    if b = 196 then
      match rest with
      | [] => none
      | n :: rest2 => takeN n rest2
    else if b = 197 then
      match readBE 2 0 rest with
      | none => none
      | some (n, rest2) => takeN n rest2
    else if b = 198 then
      match readBE 4 0 rest with
      | none => none
      | some (n, rest2) => takeN n rest2
    else none

/-- `rmp::encode::write_map_len`: fixmap below 16, map16 below 65536,
map32 otherwise. -/
def encodeMapLen (n : Nat) : List Nat :=
  if n < 16 then [128 + n]
  else if n < 65536 then 222 :: beBytes 2 n
  else 223 :: beBytes 4 n

/-- The map-header decoder (markers 0x80-0x8f, 0xde, 0xdf). -/
def decodeMapLen : List Nat → Option (Nat × List Nat)
  | [] => none
  | b :: rest =>
    if 128 ≤ b ∧ b ≤ 143 then some (b - 128, rest)
    else if b = 222 then readBE 2 0 rest
    else if b = 223 then readBE 4 0 rest
    else none

/-- One serialized map entry: str key then bin value. -/
def encodeEntry (e : Key × ImageHash) : List Nat :=
  encodeStr e.1 ++ encodeBin e.2

/-- The MessagePack image of the whole store: map header, then each
entry in iteration order. -/
def encodeDB (db : HashDB) : List Nat :=
  encodeMapLen db.length ++ (db.map encodeEntry).flatten

/-- Decode `n` map entries. -/
def decodeEntries : Nat → List Nat → Option (HashDB × List Nat)
  | 0, bs => some ([], bs)
  | n + 1, bs =>
    match decodeStr bs with
    | none => none
    | some (k, r1) =>
      match decodeBin r1 with
      | none => none
      | some (v, r2) =>
        match decodeEntries n r2 with
        | none => none
        | some (es, r3) => some ((k, v) :: es, r3)

/-- Decode a store: map header then that many entries (`rmp_serde`
reads exactly one value and ignores any trailing bytes). -/
def decodeDB (bs : List Nat) : Option HashDB :=
  match decodeMapLen bs with
  | none => none
  | some (n, rest) =>
    match decodeEntries n rest with
    | none => none
    | some (db, _) => some db

/-- A store `rmp` can represent: every length field fits the largest
(32-bit) header and all content is in byte range. -/
def validDB (db : HashDB) : Prop :=
  db.length < 2 ^ 32 ∧
    ∀ e ∈ db, e.1.length < 2 ^ 32 ∧ e.2.length < 2 ^ 32 ∧
      validBytes e.1 ∧ validBytes e.2

instance (db : HashDB) : Decidable (validDB db) := by
  unfold validDB
  infer_instance

/-- `HashDB::to_file` (`hashdb.rs` lines 245-256), with the zlib
encoder passed in as `compress` and file writing elided: the file
content is the compressed MessagePack image. -/
def to_file (compress : List Nat → List Nat) (db : HashDB) : List Nat :=
  compress (encodeDB db)

/-- `HashDB::from_file` (`hashdb.rs` lines 259-263): decompress and
decode, `none` on any structural corruption. -/
def from_file (decompress : List Nat → List Nat) (bytes : List Nat) :
    Option HashDB :=
  decodeDB (decompress bytes)

/-! ### Round-trip lemmas -/

theorem readBE_beBytes : ∀ (k n acc : Nat) (rest : List Nat), n < 256 ^ k →
    readBE k acc (beBytes k n ++ rest) = some (acc * 256 ^ k + n, rest)
  | 0, n, acc, rest, h => by
    have hn : n = 0 := Nat.lt_one_iff.mp h
    simp [beBytes, readBE, hn]
  | k + 1, n, acc, rest, h => by
    have hmod : n % 256 ^ k < 256 ^ k :=
      Nat.mod_lt _ (Nat.pow_pos (by omega))
    rw [beBytes, List.cons_append, readBE,
      readBE_beBytes k (n % 256 ^ k) (acc * 256 + n / 256 ^ k) rest hmod]
    have h1 : n / 256 ^ k * 256 ^ k + n % 256 ^ k = n := by
      rw [Nat.mul_comm]
      exact Nat.div_add_mod n (256 ^ k)
    have hdm : (acc * 256 + n / 256 ^ k) * 256 ^ k + n % 256 ^ k =
        acc * 256 ^ (k + 1) + n := by
      rw [Nat.add_mul, Nat.add_assoc, h1, Nat.pow_succ]
      ring
    rw [hdm]

theorem takeN_append (s rest : List Nat) :
    takeN s.length (s ++ rest) = some (s, rest) := by
  unfold takeN
  rw [if_pos (by simp)]
  rw [List.take_left, List.drop_left]

theorem decodeStr_encodeStr {s : List Nat} (h : s.length < 2 ^ 32)
    (rest : List Nat) : decodeStr (encodeStr s ++ rest) = some (s, rest) := by
  by_cases h32 : s.length < 32
  · have hc : 160 ≤ 160 + s.length ∧ 160 + s.length ≤ 191 := by omega
    simp only [encodeStr, if_pos h32, List.cons_append, decodeStr]
    rw [if_pos hc]
    simpa using takeN_append s rest
  · by_cases h256 : s.length < 256
    · simp only [encodeStr, if_neg h32, if_pos h256, List.cons_append,
        decodeStr]
      rw [if_pos trivial]
      exact takeN_append s rest
    · by_cases h65536 : s.length < 65536
      · simp only [encodeStr, if_neg h32, if_neg h256, if_pos h65536,
          List.cons_append, List.append_assoc, decodeStr]
        rw [if_pos trivial, readBE_beBytes 2 s.length 0 (s ++ rest) h65536]
        simpa using takeN_append s rest
      · simp only [encodeStr, if_neg h32, if_neg h256, if_neg h65536,
          List.cons_append, List.append_assoc, decodeStr]
        rw [if_pos trivial, readBE_beBytes 4 s.length 0 (s ++ rest) h]
        simpa using takeN_append s rest

theorem decodeBin_encodeBin {s : List Nat} (h : s.length < 2 ^ 32)
    (rest : List Nat) : decodeBin (encodeBin s ++ rest) = some (s, rest) := by
  by_cases h256 : s.length < 256
  · simp only [encodeBin, if_pos h256, List.cons_append, decodeBin]
    rw [if_pos trivial]
    exact takeN_append s rest
  · by_cases h65536 : s.length < 65536
    · simp only [encodeBin, if_neg h256, if_pos h65536, List.cons_append,
        List.append_assoc, decodeBin]
      rw [if_pos trivial, readBE_beBytes 2 s.length 0 (s ++ rest) h65536]
      simpa using takeN_append s rest
    · simp only [encodeBin, if_neg h256, if_neg h65536, List.cons_append,
        List.append_assoc, decodeBin]
      rw [if_pos trivial, readBE_beBytes 4 s.length 0 (s ++ rest) h]
      simpa using takeN_append s rest

theorem decodeMapLen_encodeMapLen {n : Nat} (h : n < 2 ^ 32)
    (rest : List Nat) : decodeMapLen (encodeMapLen n ++ rest) = some (n, rest) := by
  by_cases h16 : n < 16
  · have hc : 128 ≤ 128 + n ∧ 128 + n ≤ 143 := by omega
    simp only [encodeMapLen, if_pos h16, List.cons_append, List.nil_append,
      decodeMapLen]
    rw [if_pos hc]
    simp
  · by_cases h65536 : n < 65536
    · simp only [encodeMapLen, if_neg h16, if_pos h65536, List.cons_append,
        List.append_assoc, decodeMapLen]
      rw [if_pos trivial, readBE_beBytes 2 n 0 rest h65536]
      simp
    · simp only [encodeMapLen, if_neg h16, if_neg h65536, List.cons_append,
        List.append_assoc, decodeMapLen]
      rw [if_pos trivial, readBE_beBytes 4 n 0 rest h]
      simp

theorem decodeEntries_encode : ∀ (db : HashDB) (rest : List Nat),
    (∀ e ∈ db, e.1.length < 2 ^ 32 ∧ e.2.length < 2 ^ 32) →
    decodeEntries db.length ((db.map encodeEntry).flatten ++ rest) =
      some (db, rest)
  | [], rest, _ => by simp [decodeEntries]
  | e :: db, rest, h => by
    have he := h e (by simp)
    simp only [List.length_cons, List.map_cons, List.flatten_cons,
      encodeEntry, List.append_assoc, decodeEntries,
      decodeStr_encodeStr he.1, decodeBin_encodeBin he.2,
      decodeEntries_encode db rest (fun x hx => h x (by simp [hx]))]

/-! ### Claim theorem for persistence -/

/-- **C1** — Persistence round trip: for any zlib encode/decode pair
that inverts correctly and any valid store, reading the written file
yields exactly the original store (same keys with the same bytes, each
fingerprint bit-identical, in iteration order). -/
theorem to_file_from_file_roundtrip
    (compress decompress : List Nat → List Nat)
    (hinv : ∀ bs, decompress (compress bs) = bs)
    (db : HashDB) (hdb : validDB db) :
    from_file decompress (to_file compress db) = some db := by
  unfold from_file to_file
  rw [hinv]
  have hml := decodeMapLen_encodeMapLen hdb.1 ((db.map encodeEntry).flatten)
  have hent := decodeEntries_encode db []
    (fun e he => ⟨(hdb.2 e he).1, (hdb.2 e he).2.1⟩)
  rw [List.append_nil] at hent
  simp only [decodeDB, encodeDB, hml, hent]

/-- Witness for `to_file_from_file_roundtrip` with the identity
compressor on a concrete two-entry store. -/
theorem to_file_from_file_roundtrip_witness :
    (∀ bs : List Nat, (fun b => b) ((fun b => b) bs) = bs) ∧
    validDB [([104, 105], [1, 2]), ([106], [3])] ∧
    from_file (fun b => b)
        (to_file (fun b => b) [([104, 105], [1, 2]), ([106], [3])]) =
      some [([104, 105], [1, 2]), ([106], [3])] :=
  ⟨fun _ => rfl, by decide,
    to_file_from_file_roundtrip (fun b => b) (fun b => b) (fun _ => rfl)
      [([104, 105], [1, 2]), ([106], [3])] (by decide)⟩

end ImageDup
